import Mathlib

/-!
Verification development for the cross-reference cache and rewrite engine of a
file-backed note system.  The TypeScript source is embedded shallowly: strings
become `List Char` manipulations, the regex-driven scanning and rewriting is
reproduced as explicit backtracking matchers with the exact alternative order
of the JavaScript regex engine, and the stateful cache computations become
pure functions of their inputs.
-/

namespace DendronRefs

/- ## Character utilities -/

/-- JavaScript regex whitespace class membership, as used by the rewrite
pattern and by lodash trim (restricted to the ASCII whitespace characters). -/
def jsWs (c : Char) : Bool :=
  c = ' ' || c = '\t' || c = '\n' || c = '\r' || c = '\x0b' || c = '\x0c'

/-- Characters matched by the regex atom for any character: everything except
the line terminators. -/
def dotOk (c : Char) : Bool :=
  !(c = '\n') && !(c = '\r')

/-- lodash `_.trim`: strip whitespace from both ends. -/
def jsTrim (l : List Char) : List Char :=
  ((l.dropWhile jsWs).reverse.dropWhile jsWs).reverse

/-- Lower-case a character list; models `toLowerCase` / the case-insensitive
regex flag on the ASCII names that occur in the vault. -/
def lowerL (l : List Char) : List Char :=
  l.map Char.toLower

/- ## Path parsing (Node `path.parse` and `path.basename`) -/

/-- `path.basename`: the portion of the path after the last separator. -/
def basenameL (p : List Char) : List Char :=
  (p.reverse.takeWhile (fun c => !(c = '/'))).reverse

/-- Node `path.parse` name/extension split of a basename: the extension starts
at the last dot, except when that dot is the first character (hidden files) or
the basename is exactly `..`, in which case the extension is empty. -/
def splitNameExt (b : List Char) : List Char × List Char :=
  if b = ['.', '.'] then (b, [])
  else
    match b.reverse.span (fun c => !(c = '.')) with
    | (_, []) => (b, [])
    | (afterRev, _ :: beforeRev) =>
        if beforeRev = [] then (b, [])
        else (beforeRev.reverse, '.' :: afterRev.reverse)

/-- Source `containsMarkdownExt` on a basename: the regex tests that the
parsed extension ends in a literal dot-m-d, case-insensitively. -/
def containsMarkdownExtL (b : List Char) : Bool :=
  List.isSuffixOf ['.', 'm', 'd'] (lowerL (splitNameExt b).2)

/-- Source `containsMarkdownExt` lifted to path strings. -/
def containsMarkdownExt (p : String) : Bool :=
  containsMarkdownExtL (basenameL p.toList)

/- ## Reference parsing (source `parseRef`) -/

/-- The parsed form of a raw link token. -/
structure RefT where
  ref : String
  label : String
deriving DecidableEq, Repr

/-- Split a character list at the first pipe divider, the divider excluded;
`none` when no divider occurs.  Models `rawRef.indexOf("|")` plus the two
`slice` calls of the source. -/
def splitFirstPipe : List Char → Option (List Char × List Char)
  | [] => none
  | c :: rest =>
      if c = '|' then some ([], rest)
      else (splitFirstPipe rest).map (fun p => (c :: p.1, p.2))

/-- Source `parseRef`: with no divider, ref and label are both the trimmed
token; with a divider, the label is the trimmed text before the first pipe and
the ref the trimmed text after it. -/
def parseRef (rawRef : String) : RefT :=
  match splitFirstPipe rawRef.toList with
  | none => ⟨String.mk (jsTrim rawRef.toList), String.mk (jsTrim rawRef.toList)⟩
  | some (before, after) =>
      ⟨String.mk (jsTrim after), String.mk (jsTrim before)⟩

/- ## Reference resolution (source `findUriByRef`) -/

/-- The predicate the source applies to each cached uri: the basename must
carry the markdown extension and its parsed name must equal the ref,
case-insensitively. -/
def uriMatchesRef (u : String) (ref : String) : Bool :=
  containsMarkdownExtL (basenameL u.toList) &&
    (lowerL (splitNameExt (basenameL u.toList)).1 == lowerL ref.toList)

/-- Source `findUriByRef`: the first cached uri whose markdown basename,
stripped of its extension, equals the ref case-insensitively. -/
def findUriByRef (uris : List String) (ref : String) : Option String :=
  uris.find? (fun u => uriMatchesRef u ref)

/- ## Link-token scanning (source `refPattern` / `matchAll` / `extractDanglingRefs`) -/

/-- Continuation of the inner lazy match of the token pattern: stop as soon as
a double closing bracket follows, extend with any non-bracket character
otherwise.  Returns the remaining inner text and the rest after the closing
brackets. -/
def innerCont : List Char → Option (List Char × List Char)
  | ']' :: ']' :: rest => some ([], rest)
  | c :: rest =>
      if c = '[' || c = ']' then none
      else (innerCont rest).map (fun p => (c :: p.1, p.2))
  | [] => none

/-- Try to match the inside of a link token right after an opening double
bracket: at least one non-bracket character, lazily extended, followed by a
double closing bracket.  Yields the inner text and the rest of the line. -/
def innerMatch : List Char → Option (List Char × List Char)
  | c :: rest =>
      if c = '[' || c = ']' then none
      else (innerCont rest).map (fun p => (c :: p.1, p.2))
  | [] => none

/-- Fuelled left-to-right scan of a line for link tokens, reproducing the
global regex `exec` loop of `matchAll`: at each position try to match an
opening double bracket and an inner token; on success continue after the
closing brackets, on failure advance one character.  The fuel only needs to
cover the line length, since every step consumes at least one character. -/
def scanRefsF : Nat → List Char → List String
  | 0, _ => []
  | fuel + 1, l =>
      match l with
      | '[' :: '[' :: rest =>
          match innerMatch rest with
          | some (inner, rest2) => String.mk inner :: scanRefsF fuel rest2
          | none => scanRefsF fuel ('[' :: rest)
      | _ :: rest => scanRefsF fuel rest
      | [] => []

/-- All raw link tokens of one line, left to right. -/
def scanLineRefs (l : List Char) : List String :=
  scanRefsF l.length l

/-- JavaScript `content.split(/\r?\n/g)`: split at each newline, a carriage
return immediately before a newline being consumed with it; a lone carriage
return does not split. -/
def splitLinesAux : List Char → List Char → List (List Char)
  | [], acc => [acc.reverse]
  | '\r' :: '\n' :: rest, acc => acc.reverse :: splitLinesAux rest []
  | '\n' :: rest, acc => acc.reverse :: splitLinesAux rest []
  | c :: rest, acc => splitLinesAux rest (c :: acc)

/-- The lines of a content string, in order. -/
def splitLines (content : String) : List (List Char) :=
  splitLinesAux content.toList []

/-- All raw link tokens of a content string: lines top to bottom, matches left
to right within a line. -/
def scanTokens (content : String) : List String :=
  (splitLines content).flatMap scanLineRefs

/-- The dangling refs of a content string in scan order, before
deduplication: each scanned token is parsed and its ref kept exactly when no
cached uri resolves it. -/
def rawDanglingRefs (uris : List String) (content : String) : List String :=
  (scanTokens content).filterMap (fun tok =>
    let r := (parseRef tok).ref
    if (findUriByRef uris r).isNone then some r else none)

/-- JavaScript `Array.from(new Set(refs))`: deduplication keeping the first
occurrence of each element, in insertion order. -/
def jsSetDedup (l : List String) : List String :=
  l.foldl (fun acc x => if x ∈ acc then acc else acc ++ [x]) []

/-- Keep the first occurrence of every element, dropping later repeats; the
reference formulation used to characterise `jsSetDedup`. -/
def dedupKeepFirst : List String → List String
  | [] => []
  | a :: l => a :: (dedupKeepFirst l).filter (fun x => x ≠ a)

/-- Source `extractDanglingRefs`: scan every line for link tokens, keep the
parsed refs that no cached uri resolves, and deduplicate via a set. -/
def extractDanglingRefs (uris : List String) (content : String) : List String :=
  jsSetDedup (rawDanglingRefs uris content)

/- ## Shallow-first path ordering -/

/-- Modelled from the spec: the external `cross-path-sort` dependency is not
part of the sources; the spec describes its ordering as "deterministic
shallow-first path ordering (shorter hierarchical depth sorts first; ties
broken by lexical path)".  Depth is the number of path separators. -/
def pathDepth (p : String) : Nat :=
  p.toList.count '/'

/-- Lexicographic comparison of character lists, by code point. -/
def lexLE : List Char → List Char → Bool
  | [], _ => true
  | _ :: _, [] => false
  | a :: as, b :: bs =>
      if a.toNat < b.toNat then true
      else if b.toNat < a.toNat then false
      else lexLE as bs

/-- Modelled from the spec: the shallow-first comparison on paths — strictly
smaller depth first, ties broken by the lexical order on the path strings. -/
def shallowLE (a b : String) : Prop :=
  pathDepth a < pathDepth b ∨ (pathDepth a = pathDepth b ∧ lexLE a.toList b.toList = true)

instance : DecidableRel shallowLE := fun a b =>
  inferInstanceAs (Decidable (pathDepth a < pathDepth b ∨
    (pathDepth a = pathDepth b ∧ lexLE a.toList b.toList = true)))

/-- Modelled from the spec: `sortPaths` with the `shallowFirst` option sorts a
list of path strings by the shallow-first comparison. -/
def sortPathsM (l : List String) : List String :=
  l.insertionSort shallowLE

/- ## Uri cache (source `cacheUris`) -/

/-- The slice of a note visible to the uri cache: its hierarchical name and
its stub flag. -/
structure Note where
  fname : String
  stub : Bool
deriving DecidableEq, Repr

/-- The uri the source builds for a note: `Uri.joinPath(root.uri, fname + ".md")`. -/
def uriOfNote (root : String) (n : Note) : String :=
  root ++ "/" ++ n.fname ++ ".md"

/-- Source `cacheUris`, returning the cached `allUris` list: every non-stub
note contributes one markdown uri under the workspace root, and the list is
sorted shallow-first. -/
def cacheUris (root : String) (notes : List Note) : List String :=
  sortPathsM ((notes.filter (fun n => !n.stub)).map (uriOfNote root))

/- ## Vault-wide dangling list (source `cacheRefs`) -/

/-- Source `cacheRefs`, as a function of the per-file dangling map: flatten
the per-file lists, deduplicate via a set, and sort the resulting ref strings
shallow-first. -/
def cacheRefs (refsByFsPath : List (String × List String)) : List String :=
  sortPathsM (jsSetDedup ((refsByFsPath.map Prod.snd).flatten))

/- ## Per-file dangling map (source `findDanglingRefsByFsPath`) -/

/-- The facts about one scanned file location that the source consults: its
path, whether it exists on disk, whether it is a directory, and the content
the read (live buffer or disk) would produce. -/
structure FileLoc where
  fsPath : String
  onDisk : Bool
  isDir : Bool
  content : String
deriving DecidableEq, Repr

/-- The skip condition of the source loop: missing paths, paths without the
markdown extension, and directories are skipped. -/
def skipFile (f : FileLoc) : Bool :=
  !f.onDisk || !containsMarkdownExt f.fsPath || (f.onDisk && f.isDir)

/-- JavaScript object assignment `m[k] = v`: replace the value at an existing
key, append the binding otherwise. -/
def upsert (m : List (String × List String)) (k : String) (v : List String) :
    List (String × List String) :=
  if m.any (fun p => p.1 == k) then
    m.map (fun p => if p.1 == k then (k, v) else p)
  else m ++ [(k, v)]

/-- One iteration of the source scan loop: skip ineligible files, record the
extracted dangling refs under the file path only when at least one ref is
dangling. -/
def danglingStep (allUris : List String) (acc : List (String × List String))
    (f : FileLoc) : List (String × List String) :=
  if skipFile f then acc
  else
    let refs := extractDanglingRefs allUris f.content
    if refs.isEmpty then acc else upsert acc f.fsPath refs

/-- Source `findDanglingRefsByFsPath`: scan each eligible file and record its
dangling refs under its path, but only when at least one ref is dangling. -/
def findDanglingRefsByFsPath (allUris : List String) (files : List FileLoc) :
    List (String × List String) :=
  files.foldl (danglingStep allUris) []

/- ## Rewrite engine (source `replaceRefs`) -/

/-!
The source builds, for each rename pair, the regex

  two opening brackets, lazy whitespace, an optional greedy group of any
  characters ending in a pipe, whitespace, the regex-escaped old ref
  (matched case-insensitively), whitespace, two closing brackets

and replaces every match by the opening brackets, the trimmed captured group
(empty when the group did not participate), the new ref and the closing
brackets.  The functions below reproduce the exact exploration order of the
backtracking regex engine: the lazy whitespace quantifier tries shorter
prefixes first, the optional greedy group tries participation with the longest
possible text first and non-participation last, and the plain whitespace
quantifiers try longer runs first.
-/

/-- Length of the maximal whitespace run at the head of the text; every
whitespace quantifier of the pattern can consume between zero and this many
characters. -/
def wsRunLen (t : List Char) : Nat :=
  (t.takeWhile jsWs).length

/-- The whitespace-consumption choices in lazy order: shortest first. -/
def wsLazy (t : List Char) : List Nat :=
  List.range (wsRunLen t + 1)

/-- The whitespace-consumption choices in greedy order: longest first. -/
def wsGreedy (t : List Char) : List Nat :=
  (List.range (wsRunLen t + 1)).reverse

/-- All ways the optional label group can consume a prefix of the text: every
split into a nonempty prefix ending in a pipe whose characters are all
matchable by the any-character atom, together with the rest, ordered by
ascending prefix length. -/
def pipeSplitsAsc : List Char → List (List Char × List Char)
  | [] => []
  | c :: t =>
      if dotOk c then
        (if c = '|' then [([c], t)] else []) ++
          (pipeSplitsAsc t).map (fun p => (c :: p.1, p.2))
      else []

/-- Match the tail of the pattern — whitespace, the old ref
(case-insensitively), whitespace, two closing brackets — returning the text
after the match.  Both whitespace quantifiers backtrack greedily. -/
def matchTail (old : List Char) (t : List Char) : Option (List Char) :=
  (wsGreedy t).findSome? (fun w1 =>
    if lowerL ((t.drop w1).take old.length) = lowerL old then
      (wsGreedy ((t.drop w1).drop old.length)).findSome? (fun w2 =>
        match ((t.drop w1).drop old.length).drop w2 with
        | c1 :: c2 :: r => if c1 = ']' ∧ c2 = ']' then some r else none
        | _ => none)
    else none)

/-- Explore the optional label group for the text following the opening
brackets and lazy whitespace: participation with greedily long captures first,
then non-participation.  Returns the capture and the text after the match. -/
def tryGroupAndTail (old : List Char) (t1 : List Char) :
    Option (Option (List Char) × List Char) :=
  ((pipeSplitsAsc t1).reverse.findSome? (fun pr =>
      (matchTail old pr.2).map (fun r => (some pr.1, r))))
  <|> (matchTail old t1).map (fun r => ((none : Option (List Char)), r))

/-- Try to match the rewrite pattern at the very start of the text: two
opening brackets, then the lazy whitespace quantifier (shortest first), then
the group and tail.  Returns the label capture and the text after the match. -/
def matchAt (old : List Char) (s : List Char) : Option (Option (List Char) × List Char) :=
  match s with
  | c1 :: c2 :: t =>
      if c1 = '[' ∧ c2 = '[' then
        (wsLazy t).findSome? (fun k => tryGroupAndTail old (t.drop k))
      else none
  | _ => none

/-- The replacement the source emits for one match: opening brackets, the
trimmed capture (lodash trim of `undefined` is empty), the new ref, closing
brackets. -/
def replaceOne (cap : Option (List Char)) (new : List Char) : List Char :=
  '[' :: '[' :: (jsTrim (cap.getD []) ++ new ++ [']', ']'])

/-- Fuelled global replacement loop: at each position try the pattern; on a
match emit the replacement and continue after the matched text, otherwise emit
the character and advance by one, exactly as the global regex replace does.
Fuel covering the text length suffices, as every step consumes at least one
character. -/
def replaceGoF (old new : List Char) : Nat → List Char → List Char
  | 0, s => s
  | fuel + 1, l =>
      match l with
      | [] => []
      | c :: rest =>
          match matchAt old (c :: rest) with
          | some (cap, restAfter) => replaceOne cap new ++ replaceGoF old new fuel restAfter
          | none => c :: replaceGoF old new fuel rest

/-- Global case-insensitive replacement of every pattern match in the text. -/
def replaceGo (old new s : List Char) : List Char :=
  replaceGoF old new s.length s

/-- The existence test the source performs with the non-global regex: does
the pattern match anywhere in the text? -/
def hasMatch (old : List Char) : List Char → Bool
  | [] => false
  | c :: rest => (matchAt old (c :: rest)).isSome || hasMatch old rest

/-- Source `replaceRefs`: fold over the rename pairs; for each pair whose
pattern matches the content, set the updated flag and store the global
replacement applied to the original content (the accumulated text of earlier
pairs is not consulted); finally return the stored text when some pair
matched, and the no-change sentinel `none` otherwise. -/
def replaceRefs (refs : List (String × String)) (content : String) : Option String :=
  let cl := content.toList
  let res := refs.foldl (fun acc ref =>
      if hasMatch ref.1.toList cl then (true, replaceGo ref.1.toList ref.2.toList cl)
      else acc) (false, cl)
  if res.1 then some (String.mk res.2) else none

/- ## Deduplication lemmas -/

theorem filter_swap (p q : String → Bool) (l : List String) :
    (l.filter p).filter q = (l.filter q).filter p := by
  rw [List.filter_filter, List.filter_filter]
  exact List.filter_congr (fun y _ => Bool.and_comm _ _)

theorem dedupKeepFirst_filter (x : String) (m : List String) :
    dedupKeepFirst (m.filter (fun y => y ≠ x)) =
      (dedupKeepFirst m).filter (fun y => y ≠ x) := by
  induction m with
  | nil => rfl
  | cons a m ih =>
    by_cases hax : a = x
    · subst hax
      rw [List.filter_cons_of_neg (by simp)]
      rw [show dedupKeepFirst (a :: m)
            = a :: (dedupKeepFirst m).filter (fun y => y ≠ a) from rfl]
      rw [List.filter_cons_of_neg (by simp), ih, List.filter_filter]
      exact List.filter_congr (fun y _ => (Bool.and_self _).symm)
    · rw [List.filter_cons_of_pos (by simpa using hax)]
      rw [show dedupKeepFirst (a :: m.filter (fun y => y ≠ x))
            = a :: (dedupKeepFirst (m.filter (fun y => y ≠ x))).filter
                (fun y => y ≠ a) from rfl]
      rw [show dedupKeepFirst (a :: m)
            = a :: (dedupKeepFirst m).filter (fun y => y ≠ a) from rfl]
      rw [List.filter_cons_of_pos (by simpa using hax), ih]
      rw [filter_swap]

theorem nodup_dedupKeepFirst (l : List String) : (dedupKeepFirst l).Nodup := by
  induction l with
  | nil => simp [dedupKeepFirst]
  | cons a l ih =>
    simp only [dedupKeepFirst, List.nodup_cons]
    refine ⟨fun h => ?_, ih.filter _⟩
    have := List.of_mem_filter h
    simp at this

theorem mem_dedupKeepFirst (x : String) (l : List String) :
    x ∈ dedupKeepFirst l ↔ x ∈ l := by
  induction l with
  | nil => simp [dedupKeepFirst]
  | cons a l ih =>
    simp only [dedupKeepFirst, List.mem_cons, List.mem_filter, ih]
    by_cases hxa : x = a
    · simp [hxa]
    · simp [hxa]

theorem filter_notmem_append (l acc : List String) (a : String) :
    l.filter (fun x => x ∉ acc ++ [a]) =
      (l.filter (fun x => x ∉ acc)).filter (fun x => x ≠ a) := by
  rw [List.filter_filter]
  exact List.filter_congr (fun y _ => by
    simp [List.mem_append, not_or, Bool.and_comm])

theorem jsSetFold_eq (l : List String) : ∀ acc : List String,
    l.foldl (fun acc x => if x ∈ acc then acc else acc ++ [x]) acc
      = acc ++ dedupKeepFirst (l.filter (fun x => x ∉ acc)) := by
  induction l with
  | nil => intro acc; simp [dedupKeepFirst]
  | cons a l ih =>
    intro acc
    by_cases ha : a ∈ acc
    · rw [List.foldl_cons, if_pos ha, ih acc, List.filter_cons,
        if_neg (by simpa using ha)]
    · rw [List.foldl_cons, if_neg ha, ih (acc ++ [a]), List.filter_cons,
        if_pos (by simpa using ha)]
      rw [filter_notmem_append, dedupKeepFirst_filter]
      simp [dedupKeepFirst]

theorem jsSetDedup_eq_dedupKeepFirst (l : List String) :
    jsSetDedup l = dedupKeepFirst l := by
  have h := jsSetFold_eq l []
  have hf : l.filter (fun x => x ∉ ([] : List String)) = l :=
    List.filter_eq_self.mpr (fun a _ => by simp)
  rw [hf, List.nil_append] at h
  exact h

theorem nodup_jsSetDedup (l : List String) : (jsSetDedup l).Nodup := by
  rw [jsSetDedup_eq_dedupKeepFirst]; exact nodup_dedupKeepFirst l

theorem mem_jsSetDedup (x : String) (l : List String) :
    x ∈ jsSetDedup l ↔ x ∈ l := by
  rw [jsSetDedup_eq_dedupKeepFirst]; exact mem_dedupKeepFirst x l

/- ## Ordering facts about the shallow-first comparison -/

theorem char_eq_of_not_lt (a b : Char) (h1 : ¬ a.toNat < b.toNat)
    (h2 : ¬ b.toNat < a.toNat) : a = b := by
  have : a.toNat = b.toNat := Nat.le_antisymm (Nat.not_lt.mp h2) (Nat.not_lt.mp h1)
  exact Char.ext (UInt32.eq_of_toBitVec_eq (BitVec.eq_of_toNat_eq this))

theorem lexLE_total (a : List Char) : ∀ b : List Char,
    lexLE a b = true ∨ lexLE b a = true := by
  induction a with
  | nil => intro b; exact Or.inl rfl
  | cons x as ih =>
    intro b
    cases b with
    | nil => exact Or.inr rfl
    | cons y bs =>
      by_cases hxy : x.toNat < y.toNat
      · exact Or.inl (by simp [lexLE, hxy])
      · by_cases hyx : y.toNat < x.toNat
        · exact Or.inr (by simp [lexLE, hyx])
        · have hxyeq : x = y := char_eq_of_not_lt x y hxy hyx
          subst hxyeq
          rcases ih bs with h | h
          · exact Or.inl (by simp [lexLE, h])
          · exact Or.inr (by simp [lexLE, h])

theorem lexLE_cons_true (x y : Char) (as bs : List Char)
    (h : lexLE (x :: as) (y :: bs) = true) :
    x.toNat < y.toNat ∨ (x = y ∧ lexLE as bs = true) := by
  by_cases hxy : x.toNat < y.toNat
  · exact Or.inl hxy
  · by_cases hyx : y.toNat < x.toNat
    · simp [lexLE, hxy, hyx] at h
    · exact Or.inr ⟨char_eq_of_not_lt x y hxy hyx,
        by simpa [lexLE, hxy, hyx] using h⟩

theorem lexLE_trans (a : List Char) : ∀ b c : List Char,
    lexLE a b = true → lexLE b c = true → lexLE a c = true := by
  induction a with
  | nil => intro b c _ _; rfl
  | cons x as ih =>
    intro b c hab hbc
    cases b with
    | nil => simp [lexLE] at hab
    | cons y bs =>
      cases c with
      | nil => simp [lexLE] at hbc
      | cons z cs =>
        rcases lexLE_cons_true x y as bs hab with hxy | ⟨rfl, htl1⟩
        · rcases lexLE_cons_true y z bs cs hbc with hyz | ⟨rfl, _⟩
          · simp [lexLE, hxy.trans hyz]
          · simp [lexLE, hxy]
        · rcases lexLE_cons_true x z bs cs hbc with hxz | ⟨rfl, htl2⟩
          · simp [lexLE, hxz]
          · simp [lexLE, ih bs cs htl1 htl2]

theorem lexLE_antisymm (a : List Char) : ∀ b : List Char,
    lexLE a b = true → lexLE b a = true → a = b := by
  induction a with
  | nil =>
    intro b _ hba
    cases b with
    | nil => rfl
    | cons y bs => simp [lexLE] at hba
  | cons x as ih =>
    intro b hab hba
    cases b with
    | nil => simp [lexLE] at hab
    | cons y bs =>
      rcases lexLE_cons_true x y as bs hab with hxy | ⟨rfl, htl1⟩
      · rcases lexLE_cons_true y x bs as hba with hyx | ⟨rfl, _⟩
        · exact absurd (hxy.trans hyx) (Nat.lt_irrefl _)
        · exact absurd hxy (Nat.lt_irrefl _)
      · rcases lexLE_cons_true x x bs as hba with hxx | ⟨_, htl2⟩
        · exact absurd hxx (Nat.lt_irrefl _)
        · rw [ih bs htl1 htl2]

instance : IsTotal String shallowLE := by
  constructor
  intro a b
  rcases Nat.lt_trichotomy (pathDepth a) (pathDepth b) with h | h | h
  · exact Or.inl (Or.inl h)
  · rcases lexLE_total a.toList b.toList with hab | hab
    · exact Or.inl (Or.inr ⟨h, hab⟩)
    · exact Or.inr (Or.inr ⟨h.symm, hab⟩)
  · exact Or.inr (Or.inl h)

instance : IsTrans String shallowLE := by
  constructor
  intro a b c hab hbc
  rcases hab with h1 | ⟨h1, h1le⟩
  · rcases hbc with h2 | ⟨h2, _⟩
    · exact Or.inl (h1.trans h2)
    · exact Or.inl (h2 ▸ h1)
  · rcases hbc with h2 | ⟨h2, h2le⟩
    · exact Or.inl (h1 ▸ h2)
    · exact Or.inr ⟨h1.trans h2, lexLE_trans a.toList b.toList c.toList h1le h2le⟩

instance : IsAntisymm String shallowLE := by
  constructor
  intro a b hab hba
  rcases hab with h1 | ⟨h1, h1le⟩
  · rcases hba with h2 | ⟨h2, _⟩
    · exact absurd (h1.trans h2) (lt_irrefl _)
    · exact absurd h1 (h2 ▸ lt_irrefl _)
  · rcases hba with h2 | ⟨h2, h2le⟩
    · exact absurd h2 (h1 ▸ lt_irrefl _)
    · exact String.ext (lexLE_antisymm a.toList b.toList h1le h2le)

theorem mem_sortPathsM (x : String) (l : List String) :
    x ∈ sortPathsM l ↔ x ∈ l :=
  (List.perm_insertionSort shallowLE l).mem_iff

theorem sorted_sortPathsM (l : List String) :
    List.Sorted shallowLE (sortPathsM l) :=
  List.sorted_insertionSort shallowLE l

theorem nodup_sortPathsM (l : List String) (h : l.Nodup) :
    (sortPathsM l).Nodup :=
  ((List.perm_insertionSort shallowLE l).nodup_iff).mpr h

/- ## The updated-flag of the rewrite fold -/

theorem foldl_flag {α : Type} (q : α → Bool) (v : α → List Char)
    (refs : List α) : ∀ (b : Bool) (nc : List Char),
    (refs.foldl (fun acc x => if q x then (true, v x) else acc) (b, nc)).1
      = (b || refs.any q) := by
  induction refs with
  | nil => intro b nc; simp
  | cons r rs ih =>
    intro b nc
    by_cases h : q r = true
    · rw [List.foldl_cons, if_pos h, ih true _, List.any_cons, h]
      simp
    · rw [List.foldl_cons, if_neg (by simp [h]), ih b nc, List.any_cons]
      have hb : q r = false := by simpa using h
      rw [hb, Bool.false_or]

/- ## Keys of the per-file dangling map -/

theorem upsert_keys (m : List (String × List String)) (k p : String)
    (v : List String) :
    p ∈ (upsert m k v).map Prod.fst ↔ p ∈ m.map Prod.fst ∨ p = k := by
  unfold upsert
  by_cases h : m.any (fun q => q.1 == k) = true
  · rw [if_pos h]
    have hk : k ∈ m.map Prod.fst := by
      rcases List.any_eq_true.mp h with ⟨q, hq, hqk⟩
      exact List.mem_map.mpr ⟨q, hq, beq_iff_eq.mp hqk⟩
    have hkeys : (m.map (fun q => if q.1 == k then (k, v) else q)).map Prod.fst
        = m.map Prod.fst := by
      rw [List.map_map]
      refine List.map_congr_left (fun q _ => ?_)
      by_cases hq : q.1 = k
      · rw [Function.comp_apply, if_pos (beq_iff_eq.mpr hq)]
        exact hq.symm
      · rw [Function.comp_apply, if_neg (by simpa [beq_iff_eq] using hq)]
    rw [hkeys]
    constructor
    · exact Or.inl
    · rintro (hp | rfl)
      · exact hp
      · exact hk
  · rw [if_neg h]
    simp [List.mem_append]

theorem findDangling_keys_fold (allUris : List String) (files : List FileLoc)
    (p : String) : ∀ acc : List (String × List String),
    (p ∈ ((files.foldl (danglingStep allUris) acc).map Prod.fst) ↔
      p ∈ acc.map Prod.fst ∨ ∃ f ∈ files, f.fsPath = p ∧ skipFile f = false ∧
        extractDanglingRefs allUris f.content ≠ []) := by
  induction files with
  | nil => intro acc; simp
  | cons f fs ih =>
    intro acc
    rw [List.foldl_cons, ih (danglingStep allUris acc f)]
    unfold danglingStep
    by_cases hskip : skipFile f = true
    · rw [if_pos hskip]
      constructor
      · rintro (hp | hex)
        · exact Or.inl hp
        · exact Or.inr (by
            rcases hex with ⟨g, hg, hrest⟩
            exact ⟨g, List.mem_cons_of_mem _ hg, hrest⟩)
      · rintro (hp | ⟨g, hg, hgp, hgskip, hgrefs⟩)
        · exact Or.inl hp
        · rcases List.mem_cons.mp hg with rfl | hg2
          · exact absurd hskip (by simp [hgskip])
          · exact Or.inr ⟨g, hg2, hgp, hgskip, hgrefs⟩
    · rw [if_neg hskip]
      simp only [Bool.not_eq_true] at hskip
      by_cases hempty : (extractDanglingRefs allUris f.content).isEmpty = true
      · rw [if_pos hempty]
        have hnil : extractDanglingRefs allUris f.content = [] :=
          List.isEmpty_iff.mp hempty
        constructor
        · rintro (hp | ⟨g, hg, hrest⟩)
          · exact Or.inl hp
          · exact Or.inr ⟨g, List.mem_cons_of_mem _ hg, hrest⟩
        · rintro (hp | ⟨g, hg, hgp, hgskip, hgrefs⟩)
          · exact Or.inl hp
          · rcases List.mem_cons.mp hg with rfl | hg2
            · exact absurd hnil hgrefs
            · exact Or.inr ⟨g, hg2, hgp, hgskip, hgrefs⟩
      · rw [if_neg hempty]
        have hne : extractDanglingRefs allUris f.content ≠ [] := by
          intro hnil; exact hempty (List.isEmpty_iff.mpr hnil)
        rw [upsert_keys]
        constructor
        · rintro ((hp | rfl) | ⟨g, hg, hrest⟩)
          · exact Or.inl hp
          · exact Or.inr ⟨f, List.mem_cons_self _ _, rfl, hskip, hne⟩
          · exact Or.inr ⟨g, List.mem_cons_of_mem _ hg, hrest⟩
        · rintro (hp | ⟨g, hg, hgp, hgskip, hgrefs⟩)
          · exact Or.inl (Or.inl hp)
          · rcases List.mem_cons.mp hg with rfl | hg2
            · exact Or.inl (Or.inr hgp.symm)
            · exact Or.inr ⟨g, hg2, hgp, hgskip, hgrefs⟩

/- ## Path-parsing lemmas -/

theorem takeWhile_append_stop (p : Char → Bool) (a : List Char) (c0 : Char)
    (b : List Char) (ha : ∀ c ∈ a, p c = true) (hc : p c0 = false) :
    (a ++ c0 :: b).takeWhile p = a := by
  induction a with
  | nil => simp [List.takeWhile_cons, hc]
  | cons x a ih =>
    have hx : p x = true := ha x (List.mem_cons_self _ _)
    simp only [List.cons_append, List.takeWhile_cons, hx, if_true]
    rw [ih (fun c hc2 => ha c (List.mem_cons_of_mem _ hc2))]

theorem basenameL_last_segment (x y : List Char) (hy : ∀ c ∈ y, c ≠ '/') :
    basenameL (x ++ '/' :: y) = y := by
  unfold basenameL
  have hrev : (x ++ '/' :: y).reverse = y.reverse ++ '/' :: x.reverse := by
    simp
  rw [hrev, takeWhile_append_stop _ _ _ _ ?hall (by simp), List.reverse_reverse]
  case hall =>
    intro c hcmem
    have := hy c (List.mem_reverse.mp hcmem)
    simpa using this

theorem splitNameExt_md (f : List Char) (hf : f ≠ []) :
    splitNameExt (f ++ ['.', 'm', 'd']) = (f, ['.', 'm', 'd']) := by
  unfold splitNameExt
  rw [if_neg ?lenne]
  case lenne =>
    intro h
    have := congrArg List.length h
    simp at this
  have hrev : (f ++ ['.', 'm', 'd']).reverse = 'd' :: 'm' :: '.' :: f.reverse := by
    simp
  rw [hrev, List.span_eq_take_drop]
  have htake : List.takeWhile (fun c => !(c = '.')) ('d' :: 'm' :: '.' :: f.reverse)
      = ['d', 'm'] := by
    simp [List.takeWhile_cons]
  have hdrop : List.dropWhile (fun c => !(c = '.')) ('d' :: 'm' :: '.' :: f.reverse)
      = '.' :: f.reverse := by
    simp [List.dropWhile_cons]
  rw [htake, hdrop]
  simp [hf]

/- ## Resolution characterisation -/

theorem uriMatchesRef_uriOfNote (root : String) (n : Note) (r : String)
    (h1 : n.fname ≠ "") (h2 : ∀ c ∈ n.fname.toList, c ≠ '/') :
    uriMatchesRef (uriOfNote root n) r
      = (lowerL n.fname.toList == lowerL r.toList) := by
  have h1' : n.fname.toList ≠ [] := by
    intro hh
    exact h1 (by
      have : n.fname.data = "".data := by simpa using hh
      exact String.ext this)
  have hdata : (uriOfNote root n).toList
      = root.toList ++ '/' :: (n.fname.toList ++ ['.', 'm', 'd']) := by
    show (root ++ "/" ++ n.fname ++ ".md").data = _
    rw [String.data_append, String.data_append, String.data_append]
    simp [String.toList]
  have hslash : ∀ c ∈ n.fname.toList ++ ['.', 'm', 'd'], c ≠ '/' := by
    intro c hc
    rcases List.mem_append.mp hc with hc1 | hc2
    · exact h2 c hc1
    · have : c = '.' ∨ c = 'm' ∨ c = 'd' := by simpa using hc2
      rcases this with rfl | rfl | rfl <;> decide
  unfold uriMatchesRef
  rw [hdata, basenameL_last_segment _ _ hslash]
  unfold containsMarkdownExtL
  rw [splitNameExt_md _ h1']
  rw [show List.isSuffixOf ['.', 'm', 'd'] (lowerL ['.', 'm', 'd']) = true from by decide]
  rw [Bool.true_and]

theorem findUriByRef_cacheUris (root : String) (notes : List Note) (r : String)
    (hwf : ∀ n ∈ notes, n.fname ≠ "" ∧ ∀ c ∈ n.fname.toList, c ≠ '/') :
    ((findUriByRef (cacheUris root notes) r).isSome = true ↔
      ∃ n ∈ notes, n.stub = false ∧ lowerL n.fname.toList = lowerL r.toList) := by
  rw [findUriByRef, List.find?_isSome]
  constructor
  · rintro ⟨u, hu, hmatch⟩
    rw [cacheUris, mem_sortPathsM] at hu
    rcases List.mem_map.mp hu with ⟨n, hn, rfl⟩
    rcases List.mem_filter.mp hn with ⟨hn2, hstub⟩
    rw [uriMatchesRef_uriOfNote root n r (hwf n hn2).1 (hwf n hn2).2] at hmatch
    exact ⟨n, hn2, by simpa using hstub, beq_iff_eq.mp hmatch⟩
  · rintro ⟨n, hn, hstub, heq⟩
    refine ⟨uriOfNote root n, ?_, ?_⟩
    · rw [cacheUris, mem_sortPathsM]
      exact List.mem_map.mpr
        ⟨n, List.mem_filter.mpr ⟨hn, by simp [hstub]⟩, rfl⟩
    · rw [uriMatchesRef_uriOfNote root n r (hwf n hn).1 (hwf n hn).2]
      exact beq_iff_eq.mpr heq

theorem findUriByRef_none_iff (uris : List String) (r : String) :
    (findUriByRef uris r = none ↔ ∀ u ∈ uris, uriMatchesRef u r = false) := by
  rw [findUriByRef, List.find?_eq_none]
  constructor
  · intro h u hu
    simpa using h u hu
  · intro h u hu
    simp [h u hu]

/- ## Membership in the per-file dangling list -/

theorem mem_extractDanglingRefs (uris : List String) (content : String)
    (r : String) :
    r ∈ extractDanglingRefs uris content ↔
      ((∃ tok ∈ scanTokens content, (parseRef tok).ref = r) ∧
        ∀ u ∈ uris, uriMatchesRef u r = false) := by
  rw [extractDanglingRefs, mem_jsSetDedup, rawDanglingRefs, List.mem_filterMap]
  constructor
  · rintro ⟨tok, htok, hsome⟩
    by_cases hn : (findUriByRef uris (parseRef tok).ref).isNone = true
    · rw [if_pos hn] at hsome
      have hr : (parseRef tok).ref = r := by simpa using hsome
      subst hr
      exact ⟨⟨tok, htok, rfl⟩,
        (findUriByRef_none_iff uris _).mp (Option.isNone_iff_eq_none.mp hn)⟩
    · rw [if_neg hn] at hsome
      cases hsome
  · rintro ⟨⟨tok, htok, hr⟩, hnone⟩
    refine ⟨tok, htok, ?_⟩
    have hn : (findUriByRef uris (parseRef tok).ref).isNone = true := by
      rw [hr]
      exact Option.isNone_iff_eq_none.mpr ((findUriByRef_none_iff uris r).mpr hnone)
    rw [if_pos hn, hr]

/- ## Token shapes for the rewrite-engine lemmas -/

/-- A character that may appear in a plain reference token: no brackets, no
divider, no whitespace. -/
def tokChar (c : Char) : Bool :=
  !(c = '[') && !(c = ']') && !(c = '|') && !jsWs c

/-- A character that may appear in a display label: no brackets, no divider,
no line terminators. -/
def labelChar (c : Char) : Bool :=
  !(c = '[') && !(c = ']') && !(c = '|') && !(c = '\n') && !(c = '\r')

/-- Does the list start with a non-whitespace character?  False on the empty
list. -/
def headNotWsB : List Char → Bool
  | [] => false
  | c :: _ => !jsWs c

/-- A well-formed plain reference token: nonempty, all characters plain. -/
def tokOk (s : List Char) : Prop :=
  s ≠ [] ∧ ∀ c ∈ s, tokChar c = true

instance (s : List Char) : Decidable (tokOk s) :=
  inferInstanceAs (Decidable (s ≠ [] ∧ ∀ c ∈ s, tokChar c = true))

/-- A well-formed display label: nonempty, label characters only, and no
whitespace at either end (interior whitespace is allowed). -/
def labelOk (s : List Char) : Prop :=
  (∀ c ∈ s, labelChar c = true) ∧ headNotWsB s = true ∧ headNotWsB s.reverse = true

instance (s : List Char) : Decidable (labelOk s) :=
  inferInstanceAs (Decidable ((∀ c ∈ s, labelChar c = true) ∧
    headNotWsB s = true ∧ headNotWsB s.reverse = true))

theorem tokChar_spec (c : Char) (h : tokChar c = true) :
    c ≠ '[' ∧ c ≠ ']' ∧ c ≠ '|' ∧ jsWs c = false := by
  have h2 : ((¬c = '[' ∧ ¬c = ']') ∧ ¬c = '|') ∧ jsWs c = false := by
    simpa [tokChar, Bool.and_eq_true, Bool.not_eq_true',
      decide_eq_false_iff_not] using h
  exact ⟨h2.1.1.1, h2.1.1.2, h2.1.2, h2.2⟩

theorem labelChar_spec (c : Char) (h : labelChar c = true) :
    c ≠ '[' ∧ c ≠ ']' ∧ c ≠ '|' ∧ c ≠ '\n' ∧ c ≠ '\r' := by
  have h2 : (((¬c = '[' ∧ ¬c = ']') ∧ ¬c = '|') ∧ ¬c = '\n') ∧ ¬c = '\r' := by
    simpa [labelChar, Bool.and_eq_true, Bool.not_eq_true',
      decide_eq_false_iff_not] using h
  exact ⟨h2.1.1.1.1, h2.1.1.1.2, h2.1.1.2, h2.1.2, h2.2⟩

theorem headNotWsB_of_all (u : List Char) (hne : u ≠ [])
    (h : ∀ c ∈ u, jsWs c = false) : headNotWsB u = true := by
  cases u with
  | nil => exact absurd rfl hne
  | cons c rest => simp [headNotWsB, h c (List.mem_cons_self _ _)]

theorem headNotWsB_append (l X : List Char) (h : headNotWsB l = true) :
    headNotWsB (l ++ X) = true := by
  cases l with
  | nil => simp [headNotWsB] at h
  | cons c rest => simpa [headNotWsB] using h

theorem tokOk_headNotWsB (o : List Char) (ho : tokOk o) :
    headNotWsB o = true := by
  rcases ho with ⟨hne, hall⟩
  refine headNotWsB_of_all o hne (fun c hc => ?_)
  exact (tokChar_spec c (hall c hc)).2.2.2

/- ## Substring occurrence -/

/-- The needle occurs contiguously somewhere in the hay. -/
def occursIn (needle hay : List Char) : Prop :=
  ∃ a b, hay = a ++ needle ++ b

/-- Executable check for `occursIn`. -/
def occursInB (needle hay : List Char) : Bool :=
  (List.range (hay.length + 1)).any
    (fun i => (hay.drop i).take needle.length == needle)

theorem occursInB_iff (needle hay : List Char) :
    occursInB needle hay = true ↔ occursIn needle hay := by
  rw [occursInB, List.any_eq_true]
  constructor
  · rintro ⟨i, _, htake⟩
    have htake2 : (hay.drop i).take needle.length = needle := beq_iff_eq.mp htake
    refine ⟨hay.take i, (hay.drop i).drop needle.length, ?_⟩
    have hdropi : hay.drop i = needle ++ (hay.drop i).drop needle.length := by
      conv_lhs => rw [← List.take_append_drop needle.length (hay.drop i)]
      rw [htake2]
    calc hay = hay.take i ++ hay.drop i := (List.take_append_drop i hay).symm
    _ = hay.take i ++ (needle ++ (hay.drop i).drop needle.length) := by
        rw [← hdropi]
    _ = hay.take i ++ needle ++ (hay.drop i).drop needle.length := by
        rw [List.append_assoc]
  · rintro ⟨a, b, rfl⟩
    refine ⟨a.length, ?_, ?_⟩
    · simp only [List.mem_range, List.length_append]
      omega
    · rw [List.append_assoc, List.drop_left, List.take_left]
      exact beq_self_eq_true needle

theorem occursIn_nil_iff (needle : List Char) :
    occursIn needle [] ↔ needle = [] := by
  constructor
  · rintro ⟨a, b, h⟩
    rcases List.append_eq_nil.mp h.symm with ⟨hfront, _⟩
    exact (List.append_eq_nil.mp hfront).2
  · rintro rfl
    exact ⟨[], [], rfl⟩

theorem occursIn_cons_of (needle x : List Char) (d : Char)
    (h : occursIn needle x) : occursIn needle (d :: x) := by
  rcases h with ⟨a, b, rfl⟩
  exact ⟨d :: a, b, rfl⟩

theorem front_of_eq (w : List Char) (c : Char) : ∀ u v b : List Char,
    u ++ c :: v = w ++ b → c ∉ w → ∃ rest, u = w ++ rest ∧ rest ++ c :: v = b := by
  induction w with
  | nil =>
    intro u v b h _
    exact ⟨u, rfl, h⟩
  | cons w0 w ih =>
    intro u v b h hc
    cases u with
    | nil =>
      exfalso
      have : c = w0 := by simpa using congrArg (fun l => l.head?) h
      exact hc (this ▸ List.mem_cons_self _ _)
    | cons u0 u =>
      have h0 : u0 = w0 := by simpa using congrArg (fun l => l.head?) h
      have htl : u ++ c :: v = w ++ b := by
        simpa using congrArg List.tail h
      rcases ih u v b htl (fun hmem => hc (List.mem_cons_of_mem _ hmem)) with
        ⟨rest, hrest1, hrest2⟩
      exact ⟨rest, by rw [h0, hrest1]; rfl, hrest2⟩

theorem occursIn_split (needle : List Char) (c : Char)
    (hne : needle ≠ []) (hc : c ∉ needle) : ∀ x y : List Char,
    occursIn needle (x ++ c :: y) → occursIn needle x ∨ occursIn needle y := by
  intro x
  induction x with
  | nil =>
    intro y h
    rcases h with ⟨a, b, h⟩
    cases a with
    | nil =>
      exfalso
      cases needle with
      | nil => exact hne rfl
      | cons n0 ntl =>
        have : c = n0 := by simpa using congrArg (fun l => l.head?) h
        exact hc (this ▸ List.mem_cons_self _ _)
    | cons a0 a =>
      right
      have htl : y = a ++ needle ++ b := by
        simpa using congrArg List.tail h
      exact ⟨a, b, htl⟩
  | cons d x ih =>
    intro y h
    rcases h with ⟨a, b, h⟩
    cases a with
    | nil =>
      left
      cases needle with
      | nil => exact absurd rfl hne
      | cons n0 ntl =>
        have h0 : d = n0 := by simpa using congrArg (fun l => l.head?) h
        have htl : x ++ c :: y = ntl ++ b := by
          simpa using congrArg List.tail h
        rcases front_of_eq ntl c x y b htl
            (fun hmem => hc (List.mem_cons_of_mem _ hmem)) with ⟨rest, hr1, _⟩
        exact ⟨[], rest, by rw [hr1, h0]; rfl⟩
    | cons a0 a =>
      have htl : x ++ c :: y = a ++ needle ++ b := by
        simpa using congrArg List.tail h
      rcases ih y ⟨a, b, htl⟩ with hx | hy
      · exact Or.inl (occursIn_cons_of _ _ _ hx)
      · exact Or.inr hy

/- ## Evaluation lemmas for the rewrite matcher -/

theorem findSome?_single {α β : Type} (f : α → Option β) (a : α) :
    List.findSome? f [a] = f a := by
  cases h : f a <;> simp [List.findSome?_cons, h]

theorem wsRunLen_eq_zero (t : List Char) (h : headNotWsB t = true) :
    wsRunLen t = 0 := by
  cases t with
  | nil => simp [headNotWsB] at h
  | cons c rest =>
    have hc : jsWs c = false := by simpa [headNotWsB] using h
    simp [wsRunLen, List.takeWhile_cons, hc]

theorem wsLazy_singleton (t : List Char) (h : headNotWsB t = true) :
    wsLazy t = [0] := by
  rw [wsLazy, wsRunLen_eq_zero t h]
  decide

theorem wsGreedy_singleton (t : List Char) (h : headNotWsB t = true) :
    wsGreedy t = [0] := by
  rw [wsGreedy, wsRunLen_eq_zero t h]
  decide

theorem pipeSplitsAsc_nil_of_noPipe (m : List Char) (h : ∀ c ∈ m, c ≠ '|') :
    pipeSplitsAsc m = [] := by
  induction m with
  | nil => rfl
  | cons c t ih =>
    unfold pipeSplitsAsc
    by_cases hd : dotOk c = true
    · rw [if_pos hd, if_neg (h c (List.mem_cons_self _ _)),
        ih (fun x hx => h x (List.mem_cons_of_mem _ hx))]
      rfl
    · rw [if_neg hd]

theorem pipeSplitsAsc_pipe_front (l r : List Char)
    (hl : ∀ c ∈ l, labelChar c = true)
    (hr : ∀ c ∈ r, c ≠ '|') :
    pipeSplitsAsc (l ++ '|' :: r) = [(l ++ ['|'], r)] := by
  induction l with
  | nil =>
    show pipeSplitsAsc ('|' :: r) = [(['|'], r)]
    unfold pipeSplitsAsc
    rw [if_pos (by decide), if_pos rfl, pipeSplitsAsc_nil_of_noPipe r hr]
    rfl
  | cons c l ih =>
    have hc := labelChar_spec c (hl c (List.mem_cons_self _ _))
    show pipeSplitsAsc (c :: (l ++ '|' :: r)) = _
    unfold pipeSplitsAsc
    rw [if_pos ?dot, if_neg hc.2.2.1,
      ih (fun x hx => hl x (List.mem_cons_of_mem _ hx))]
    · rfl
    case dot =>
      simp [dotOk, hc.2.2.2.1, hc.2.2.2.2]

theorem matchTail_exact (o rest : List Char) (ho : tokOk o) :
    matchTail o (o ++ ']' :: ']' :: rest) = some rest := by
  unfold matchTail
  rw [wsGreedy_singleton _ (headNotWsB_append o _ (tokOk_headNotWsB o ho)),
    findSome?_single]
  simp only [List.drop_zero, List.take_left, List.drop_left]
  rw [if_pos trivial,
    wsGreedy_singleton (']' :: ']' :: rest) (by simp [headNotWsB, jsWs]),
    findSome?_single]
  simp only [List.drop_zero]
  simp

theorem tryGroupAndTail_plain (o : List Char) (ho : tokOk o) :
    tryGroupAndTail o (o ++ [']', ']']) = some (none, []) := by
  unfold tryGroupAndTail
  rw [pipeSplitsAsc_nil_of_noPipe (o ++ [']', ']']) ?nopipe]
  · rw [List.reverse_nil, List.findSome?_nil,
      matchTail_exact o [] ho]
    rfl
  case nopipe =>
    intro c hc
    rcases List.mem_append.mp hc with hc1 | hc2
    · exact (tokChar_spec c (ho.2 c hc1)).2.2.1
    · have : c = ']' ∨ c = ']' := by simpa using hc2
      rcases this with rfl | rfl <;> decide

theorem tryGroupAndTail_labelled (l o : List Char) (hl : labelOk l)
    (ho : tokOk o) :
    tryGroupAndTail o (l ++ '|' :: (o ++ [']', ']']))
      = some (some (l ++ ['|']), []) := by
  unfold tryGroupAndTail
  rw [pipeSplitsAsc_pipe_front l (o ++ [']', ']']) hl.1 ?nopipe]
  · rw [List.reverse_singleton, findSome?_single,
      matchTail_exact o [] ho]
    rfl
  case nopipe =>
    intro c hc
    rcases List.mem_append.mp hc with hc1 | hc2
    · exact (tokChar_spec c (ho.2 c hc1)).2.2.1
    · have : c = ']' ∨ c = ']' := by simpa using hc2
      rcases this with rfl | rfl <;> decide

theorem matchAt_cons_cons (old : List Char) (c1 c2 : Char) (t : List Char) :
    matchAt old (c1 :: c2 :: t) =
      if c1 = '[' ∧ c2 = '[' then
        (wsLazy t).findSome? (fun k => tryGroupAndTail old (t.drop k))
      else none := rfl

theorem matchAt_plain (o : List Char) (ho : tokOk o) :
    matchAt o ('[' :: '[' :: (o ++ [']', ']'])) = some (none, []) := by
  rw [matchAt_cons_cons]
  rw [if_pos ⟨rfl, rfl⟩,
    wsLazy_singleton _ (headNotWsB_append o _ (tokOk_headNotWsB o ho)),
    findSome?_single, List.drop_zero, tryGroupAndTail_plain o ho]

theorem matchAt_labelled (l o : List Char) (hl : labelOk l) (ho : tokOk o) :
    matchAt o ('[' :: '[' :: (l ++ '|' :: (o ++ [']', ']'])))
      = some (some (l ++ ['|']), []) := by
  rw [matchAt_cons_cons]
  rw [if_pos ⟨rfl, rfl⟩,
    wsLazy_singleton _ (headNotWsB_append l _ hl.2.1),
    findSome?_single, List.drop_zero, tryGroupAndTail_labelled l o hl ho]


/- ## Trim lemmas -/

theorem dropWhile_of_headNot (u : List Char) (h : headNotWsB u = true) :
    u.dropWhile jsWs = u := by
  cases u with
  | nil => rfl
  | cons c rest =>
    have hc : jsWs c = false := by simpa [headNotWsB] using h
    simp [List.dropWhile_cons, hc]

theorem jsTrim_eq_self (u : List Char) (h1 : headNotWsB u = true)
    (h2 : headNotWsB u.reverse = true) : jsTrim u = u := by
  unfold jsTrim
  rw [dropWhile_of_headNot u h1, dropWhile_of_headNot u.reverse h2,
    List.reverse_reverse]

theorem jsTrim_of_allNotWs (u : List Char) (h : ∀ c ∈ u, jsWs c = false) :
    jsTrim u = u := by
  cases hu : u with
  | nil => rfl
  | cons c rest =>
    rw [← hu]
    refine jsTrim_eq_self u (headNotWsB_of_all u (by rw [hu]; simp) h)
      (headNotWsB_of_all u.reverse (by rw [hu]; simp) ?_)
    intro x hx
    exact h x (List.mem_reverse.mp hx)

/- ## Evaluating the global replacement on a full single match -/

theorem replaceGoF_nil (old new : List Char) (fuel : Nat) :
    replaceGoF old new fuel [] = [] := by cases fuel <;> rfl

theorem replaceGo_full_match (old new : List Char) (c : Char) (rest : List Char)
    (cap : Option (List Char)) (h : matchAt old (c :: rest) = some (cap, [])) :
    replaceGo old new (c :: rest) = replaceOne cap new := by
  unfold replaceGo
  rw [List.length_cons]
  simp [replaceGoF, h, replaceGoF_nil]

theorem hasMatch_cons_of_isSome (old : List Char) (c : Char) (rest : List Char)
    (h : (matchAt old (c :: rest)).isSome = true) :
    hasMatch old (c :: rest) = true := by
  unfold hasMatch
  rw [h, Bool.true_or]

/- ## Unfolding the rewrite fold -/

/-- The fold step of `replaceRefs`, named for the proofs: note that the
replacement is computed from the original content, not from the accumulated
text. -/
def rrStep (content : String) (acc : Bool × List Char) (ref : String × String) :
    Bool × List Char :=
  if hasMatch ref.1.toList content.toList then
    (true, replaceGo ref.1.toList ref.2.toList content.toList)
  else acc

theorem replaceRefs_eq (refs : List (String × String)) (content : String) :
    replaceRefs refs content =
      if (refs.foldl (rrStep content) (false, content.toList)).1 then
        some (String.mk ((refs.foldl (rrStep content) (false, content.toList)).2))
      else none := rfl

theorem rrStep_flag (content : String) (refs : List (String × String)) :
    (refs.foldl (rrStep content) (false, content.toList)).1
      = refs.any (fun p => hasMatch p.1.toList content.toList) := by
  have h := foldl_flag (fun p : String × String => hasMatch p.1.toList content.toList)
    (fun p : String × String => replaceGo p.1.toList p.2.toList content.toList)
    refs false content.toList
  simpa [rrStep] using h

theorem replaceRefs_single_full (o n content : String) (cap : Option (List Char))
    (hm : matchAt o.toList content.toList = some (cap, [])) :
    replaceRefs [(o, n)] content = some (String.mk (replaceOne cap n.toList)) := by
  cases hcl : content.toList with
  | nil =>
    rw [hcl] at hm
    simp [matchAt] at hm
  | cons c rest =>
    rw [hcl] at hm
    have hmatch : hasMatch o.toList content.toList = true := by
      rw [hcl]
      exact hasMatch_cons_of_isSome _ _ _ (by rw [hm]; rfl)
    rw [replaceRefs_eq, List.foldl_cons, List.foldl_nil]
    rw [show rrStep content (false, content.toList) (o, n)
        = (true, replaceGo o.toList n.toList content.toList) from by
      unfold rrStep; rw [if_pos hmatch]]
    rw [if_pos rfl]
    rw [hcl, replaceGo_full_match o.toList n.toList c rest cap hm]

/- ## Character-list forms of the link contents -/

theorem toList_plain_link (o : String) :
    ("[[" ++ o ++ "]]").toList = '[' :: '[' :: (o.toList ++ [']', ']']) := by
  show ("[[" ++ o ++ "]]").data = _
  rw [String.data_append, String.data_append]
  show ['[', '['] ++ o.data ++ [']', ']'] = _
  simp

theorem toList_labelled_link (d o : String) :
    ("[[" ++ d ++ "|" ++ o ++ "]]").toList
      = '[' :: '[' :: (d.toList ++ '|' :: (o.toList ++ [']', ']'])) := by
  show ("[[" ++ d ++ "|" ++ o ++ "]]").data = _
  rw [String.data_append, String.data_append, String.data_append,
    String.data_append]
  show ['[', '['] ++ d.data ++ ['|'] ++ o.data ++ [']', ']'] = _
  simp

/- ## Evaluating `parseRef` on shaped tokens -/

theorem splitFirstPipe_none (l : List Char) (h : ∀ c ∈ l, c ≠ '|') :
    splitFirstPipe l = none := by
  induction l with
  | nil => rfl
  | cons c rest ih =>
    unfold splitFirstPipe
    rw [if_neg (h c (List.mem_cons_self _ _)),
      ih (fun x hx => h x (List.mem_cons_of_mem _ hx))]
    rfl

theorem splitFirstPipe_split (l r : List Char) (h : ∀ c ∈ l, c ≠ '|') :
    splitFirstPipe (l ++ '|' :: r) = some (l, r) := by
  induction l with
  | nil =>
    show splitFirstPipe ('|' :: r) = some ([], r)
    unfold splitFirstPipe
    rw [if_pos rfl]
  | cons c rest ih =>
    show splitFirstPipe (c :: (rest ++ '|' :: r)) = _
    unfold splitFirstPipe
    rw [if_neg (h c (List.mem_cons_self _ _)),
      ih (fun x hx => h x (List.mem_cons_of_mem _ hx))]
    rfl

theorem tokOk_noPipe (o : List Char) (ho : tokOk o) : ∀ c ∈ o, c ≠ '|' :=
  fun c hc => (tokChar_spec c (ho.2 c hc)).2.2.1

theorem tokOk_noWs (o : List Char) (ho : tokOk o) : ∀ c ∈ o, jsWs c = false :=
  fun c hc => (tokChar_spec c (ho.2 c hc)).2.2.2

theorem mk_toList (s : String) : String.mk s.toList = s := rfl

theorem parseRef_no_divider (o : String) (ho : tokOk o.toList) :
    parseRef o = ⟨o, o⟩ := by
  unfold parseRef
  rw [splitFirstPipe_none o.toList (tokOk_noPipe _ ho)]
  rw [jsTrim_of_allNotWs o.toList (tokOk_noWs _ ho), mk_toList]

theorem toList_divider (d o : String) :
    (d ++ "|" ++ o).toList = d.toList ++ '|' :: o.toList := by
  show (d ++ "|" ++ o).data = _
  rw [String.data_append, String.data_append]
  show d.data ++ ['|'] ++ o.data = _
  simp

theorem labelOk_noPipe (l : List Char) (hl : labelOk l) : ∀ c ∈ l, c ≠ '|' :=
  fun c hc => (labelChar_spec c (hl.1 c hc)).2.2.1

theorem parseRef_single_divider (d o : String) (hd : labelOk d.toList)
    (ho : tokOk o.toList) :
    parseRef (d ++ "|" ++ o) = ⟨o, d⟩ := by
  unfold parseRef
  rw [toList_divider, splitFirstPipe_split d.toList o.toList (labelOk_noPipe _ hd)]
  show (⟨String.mk (jsTrim o.toList), String.mk (jsTrim d.toList)⟩ : RefT) = ⟨o, d⟩
  rw [jsTrim_of_allNotWs o.toList (tokOk_noWs _ ho),
    jsTrim_eq_self d.toList hd.2.1 hd.2.2, mk_toList, mk_toList]

/- ## Evaluating the full rewrite on canonical single-link contents -/

theorem replaceRefs_plain_eval (o n : String) (ho : tokOk o.toList) :
    replaceRefs [(o, n)] ("[[" ++ o ++ "]]") = some ("[[" ++ n ++ "]]") := by
  have hm : matchAt o.toList ("[[" ++ o ++ "]]").toList = some (none, []) := by
    rw [toList_plain_link]
    exact matchAt_plain o.toList ho
  rw [replaceRefs_single_full o n _ none hm]
  refine congrArg some (String.ext ?_)
  show replaceOne none n.toList = ("[[" ++ n ++ "]]").toList
  rw [toList_plain_link]
  unfold replaceOne
  show '[' :: '[' :: (jsTrim [] ++ n.toList ++ [']', ']']) = _
  simp [jsTrim]

theorem replaceRefs_labelled_eval (d o n : String) (hd : labelOk d.toList)
    (ho : tokOk o.toList) :
    replaceRefs [(o, n)] ("[[" ++ d ++ "|" ++ o ++ "]]")
      = some ("[[" ++ d ++ "|" ++ n ++ "]]") := by
  have hm : matchAt o.toList ("[[" ++ d ++ "|" ++ o ++ "]]").toList
      = some (some (d.toList ++ ['|']), []) := by
    rw [toList_labelled_link]
    exact matchAt_labelled d.toList o.toList hd ho
  rw [replaceRefs_single_full o n _ _ hm]
  refine congrArg some (String.ext ?_)
  show replaceOne (some (d.toList ++ ['|'])) n.toList
      = ("[[" ++ d ++ "|" ++ n ++ "]]").toList
  rw [toList_labelled_link]
  unfold replaceOne
  have htrim : jsTrim (d.toList ++ ['|']) = d.toList ++ ['|'] := by
    refine jsTrim_eq_self _ (headNotWsB_append _ _ hd.2.1) ?_
    rw [List.reverse_append]
    simp [headNotWsB, jsWs]
  show '[' :: '[' :: (jsTrim ((some (d.toList ++ ['|'])).getD []) ++ n.toList
      ++ [']', ']']) = _
  rw [Option.getD_some, htrim]
  simp

theorem not_occursIn_of_B (needle hay : List Char)
    (h : occursInB needle hay = false) : ¬ occursIn needle hay := by
  intro hc
  rw [(occursInB_iff needle hay).mpr hc] at h
  cases h

/-- The ordering the C6 claim describes, written from its words: the per-file
lists are arranged shallow-first by the originating file path, their refs
concatenated in that order, and duplicates dropped keeping the first
occurrence. -/
def filePairLE (p q : String × List String) : Prop := shallowLE p.1 q.1

instance : DecidableRel filePairLE := fun p q =>
  inferInstanceAs (Decidable (shallowLE p.1 q.1))

/-- The vault-wide dangling list as the C6 claim orders it: by originating
file path, not by the ref string. -/
def cacheRefsByFileOrder (m : List (String × List String)) : List String :=
  jsSetDedup (((m.insertionSort filePairLE).map Prod.snd).flatten)

/- ## Claim theorems -/

/-- Claim C1 (code bug): the claim says the batch rewrite applies all matching
pairs cumulatively, and the reduce in the source threads an accumulated
`nextContent` for exactly that purpose — but each iteration matches and
replaces against the original `content` instead of the accumulator, so the
replacement of an earlier pair is discarded whenever a later pair also
matches.  At the failing input both pairs match and the result carries only
the second pair's rewrite. -/
theorem replaceRefs_batch_last_pair_wins :
    replaceRefs [("a", "x")] "[[a]] [[b]]" = some "[[x]] [[b]]"
    ∧ replaceRefs [("b", "y")] "[[a]] [[b]]" = some "[[a]] [[y]]"
    ∧ replaceRefs [("a", "x"), ("b", "y")] "[[a]] [[b]]" = some "[[a]] [[y]]" := by
  decide

/-- Claim C2 counterexample: the claim says a reference matching a stub note
is not reported dangling, but `cacheUris` filters stub notes out of the cached
uris, so the reference `foo` — whose only matching note is the stub `foo` —
is reported in the per-file dangling list. -/
theorem stub_only_ref_reported_dangling_cex :
    (⟨"foo", true⟩ : Note) ∈
      ([⟨"root", false⟩, ⟨"foo", true⟩, ⟨"foo.ch1", false⟩] : List Note)
    ∧ extractDanglingRefs
        (cacheUris "/ws" [⟨"root", false⟩, ⟨"foo", true⟩, ⟨"foo.ch1", false⟩])
        "[[foo]]" = ["foo"] := by
  decide

/-- Claim C2 as amended: resolution counts only non-stub notes as known
targets — a reference resolves against the cached uris exactly when some
non-stub note's full hierarchical name matches it case-insensitively, so a
reference whose only match is a stub note is dangling. -/
theorem resolution_counts_only_nonstub_notes (root : String) (notes : List Note)
    (r : String)
    (hwf : ∀ n ∈ notes, n.fname ≠ "" ∧ ∀ c ∈ n.fname.toList, c ≠ '/') :
    ((findUriByRef (cacheUris root notes) r).isSome = true ↔
      ∃ n ∈ notes, n.stub = false ∧ lowerL n.fname.toList = lowerL r.toList) :=
  findUriByRef_cacheUris root notes r hwf

/-- Claim C2 witness. -/
theorem resolution_counts_only_nonstub_notes_w :
    ((findUriByRef (cacheUris "/ws" [⟨"root", false⟩, ⟨"foo", true⟩]) "foo").isSome
        = true ↔
      ∃ n ∈ ([⟨"root", false⟩, ⟨"foo", true⟩] : List Note),
        n.stub = false ∧ lowerL n.fname.toList = lowerL "foo".toList) :=
  resolution_counts_only_nonstub_notes "/ws" [⟨"root", false⟩, ⟨"foo", true⟩] "foo"
    (by decide)

/-- Claim C3 counterexample: the claim says a ref equal to the leaf segment of
a multi-segment note name resolves (ref `ch1` against note `foo.ch1`), but
`findUriByRef` compares the ref against the parsed file name — the full
dot-delimited name `foo.ch1` — so `ch1` does not resolve and is reported
dangling, while the full name does resolve. -/
theorem leaf_segment_ref_dangles_cex :
    findUriByRef ["/ws/foo.ch1.md"] "ch1" = none
    ∧ extractDanglingRefs ["/ws/foo.ch1.md"] "[[ch1]]" = ["ch1"]
    ∧ findUriByRef ["/ws/foo.ch1.md"] "foo.ch1" = some "/ws/foo.ch1.md"
    ∧ findUriByRef ["/ws/foo.ch1.md"] "FOO.CH1" = some "/ws/foo.ch1.md" := by
  decide

/-- Claim C3 as amended: a scanned ref is in the per-file dangling list
exactly when it was produced by scanning the content and no known uri
matches it — where a uri matches when it carries the markdown extension and
its basename stripped of the extension (the full dot-delimited note name, not
the leaf segment) equals the ref case-insensitively. -/
theorem dangling_iff_no_fullname_match (uris : List String) (content : String)
    (r : String) :
    r ∈ extractDanglingRefs uris content ↔
      ((∃ tok ∈ scanTokens content, (parseRef tok).ref = r) ∧
        ∀ u ∈ uris, uriMatchesRef u r = false) :=
  mem_extractDanglingRefs uris content r

/-- Claim C3 witness. -/
theorem dangling_iff_no_fullname_match_w :
    ("b" ∈ extractDanglingRefs ["/ws/a.md"] "[[b]]" ↔
      ((∃ tok ∈ scanTokens "[[b]]", (parseRef tok).ref = "b") ∧
        ∀ u ∈ ["/ws/a.md"], uriMatchesRef u "b" = false)) :=
  dangling_iff_no_fullname_match ["/ws/a.md"] "[[b]]" "b"

/-- Claim C4 counterexample: the claim says a no-op rename (old equal to new)
returns the no-change sentinel, but when the pair matches the source sets the
updated flag and returns the rewritten — here identical — string rather than
the sentinel. -/
theorem noop_rename_returns_identical_string_cex :
    replaceRefs [("foo", "foo")] "[[foo]]" = some "[[foo]]"
    ∧ replaceRefs [("foo", "foo")] "[[foo]]" ≠ none := by
  decide

/-- Claim C4 as amended: with old equal to new the rewrite never produces a
changed string — on a canonical matched link it returns a string identical to
the input — but the no-change sentinel is returned only when no pair matched,
not for the matched no-op rename. -/
theorem noop_rename_returns_input_string (o : String) (ho : tokOk o.toList) :
    replaceRefs [(o, o)] ("[[" ++ o ++ "]]") = some ("[[" ++ o ++ "]]")
    ∧ replaceRefs [(o, o)] ("[[" ++ o ++ "]]") ≠ none := by
  refine ⟨replaceRefs_plain_eval o o ho, ?_⟩
  rw [replaceRefs_plain_eval o o ho]
  simp

/-- Claim C4 witness. -/
theorem noop_rename_returns_input_string_w :
    replaceRefs [("foo", "foo")] ("[[" ++ "foo" ++ "]]")
        = some ("[[" ++ "foo" ++ "]]")
    ∧ replaceRefs [("foo", "foo")] ("[[" ++ "foo" ++ "]]") ≠ none :=
  noop_rename_returns_input_string "foo" (by decide)

/-- Claim C5: rewriting a labelled link swaps only the reference portion and
keeps the explicit label verbatim, the old ref occurs nowhere in the result,
and a matched link without an explicit label is rewritten without a label. -/
theorem rewrite_preserves_label (d o n : String)
    (hd : labelOk d.toList) (ho : tokOk o.toList)
    (hdo : occursInB o.toList d.toList = false)
    (hno : occursInB o.toList n.toList = false) :
    replaceRefs [(o, n)] ("[[" ++ d ++ "|" ++ o ++ "]]")
        = some ("[[" ++ d ++ "|" ++ n ++ "]]")
    ∧ ¬ occursIn o.toList ("[[" ++ d ++ "|" ++ n ++ "]]").toList
    ∧ replaceRefs [(o, n)] ("[[" ++ o ++ "]]") = some ("[[" ++ n ++ "]]") := by
  refine ⟨replaceRefs_labelled_eval d o n hd ho, ?_,
    replaceRefs_plain_eval o n ho⟩
  rw [toList_labelled_link]
  intro hocc
  have hne := ho.1
  have hbrL : '[' ∉ o.toList := fun hm => (tokChar_spec _ (ho.2 _ hm)).1 rfl
  have hbrR : ']' ∉ o.toList := fun hm => (tokChar_spec _ (ho.2 _ hm)).2.1 rfl
  have hpipe : '|' ∉ o.toList := fun hm => (tokChar_spec _ (ho.2 _ hm)).2.2.1 rfl
  have hnd : ¬ occursIn o.toList d.toList := not_occursIn_of_B _ _ hdo
  have hnn : ¬ occursIn o.toList n.toList := not_occursIn_of_B _ _ hno
  have hocc2 : occursIn o.toList
      (('[' :: '[' :: d.toList) ++ '|' :: (n.toList ++ [']', ']'])) := hocc
  rcases occursIn_split o.toList '|' hne hpipe ('[' :: '[' :: d.toList)
      (n.toList ++ [']', ']']) hocc2 with hL | hR
  · rcases occursIn_split o.toList '[' hne hbrL [] ('[' :: d.toList) hL with h0 | h1
    · exact hne ((occursIn_nil_iff _).mp h0)
    · rcases occursIn_split o.toList '[' hne hbrL [] d.toList h1 with h0 | h2
      · exact hne ((occursIn_nil_iff _).mp h0)
      · exact hnd h2
  · rcases occursIn_split o.toList ']' hne hbrR n.toList [']'] hR with h0 | h1
    · exact hnn h0
    · rcases occursIn_split o.toList ']' hne hbrR [] [] h1 with h0 | h0 <;>
        exact hne ((occursIn_nil_iff _).mp h0)

/-- Claim C5 witness. -/
theorem rewrite_preserves_label_w :
    replaceRefs [("OldRef", "NewRef")] ("[[" ++ "display" ++ "|" ++ "OldRef" ++ "]]")
        = some ("[[" ++ "display" ++ "|" ++ "NewRef" ++ "]]")
    ∧ ¬ occursIn "OldRef".toList
        ("[[" ++ "display" ++ "|" ++ "NewRef" ++ "]]").toList
    ∧ replaceRefs [("OldRef", "NewRef")] ("[[" ++ "OldRef" ++ "]]")
        = some ("[[" ++ "NewRef" ++ "]]") :=
  rewrite_preserves_label "display" "OldRef" "NewRef" (by decide) (by decide)
    (by decide) (by decide)

/-- Claim C6 counterexample: the claim says the vault-wide dangling list is
ordered shallow-first by the originating file path; the source instead sorts
the deduplicated ref strings themselves.  With the ref `z` originating from
the earlier file `a.md` and the ref `a` from the later file `b.md`, the
file-path ordering puts `z` first while the source's output puts `a` first. -/
theorem global_dangling_order_by_ref_not_file_cex :
    cacheRefs [("a.md", ["z"]), ("b.md", ["a"])] = ["a", "z"]
    ∧ cacheRefsByFileOrder [("a.md", ["z"]), ("b.md", ["a"])] = ["z", "a"]
    ∧ cacheRefs [("a.md", ["z"]), ("b.md", ["a"])]
        ≠ cacheRefsByFileOrder [("a.md", ["z"]), ("b.md", ["a"])] := by
  decide

/-- Claim C6 as amended: the vault-wide dangling list is the deduplicated
union of the per-file lists, sorted shallow-first by the dangling ref string
itself with ties broken lexically — not by the originating file path — and
the result is independent of the order in which the per-file lists were
produced. -/
theorem cacheRefs_dedup_sorted_by_ref_string (m m' : List (String × List String))
    (hperm : m.Perm m') :
    (cacheRefs m).Nodup
    ∧ (∀ r, r ∈ cacheRefs m ↔ ∃ p ∈ m, r ∈ p.2)
    ∧ List.Sorted shallowLE (cacheRefs m)
    ∧ cacheRefs m = cacheRefs m' := by
  refine ⟨nodup_sortPathsM _ (nodup_jsSetDedup _), ?_, sorted_sortPathsM _, ?_⟩
  · intro r
    rw [cacheRefs, mem_sortPathsM, mem_jsSetDedup, List.mem_flatten]
    constructor
    · rintro ⟨l, hl, hr⟩
      rcases List.mem_map.mp hl with ⟨p, hp, rfl⟩
      exact ⟨p, hp, hr⟩
    · rintro ⟨p, hp, hr⟩
      exact ⟨p.2, List.mem_map.mpr ⟨p, hp, rfl⟩, hr⟩
  · have hmem : ∀ a, a ∈ jsSetDedup ((m.map Prod.snd).flatten)
        ↔ a ∈ jsSetDedup ((m'.map Prod.snd).flatten) := by
      intro a
      rw [mem_jsSetDedup, mem_jsSetDedup]
      exact ((hperm.map Prod.snd).flatten).mem_iff
    have h1 : (jsSetDedup ((m.map Prod.snd).flatten)).Perm
        (jsSetDedup ((m'.map Prod.snd).flatten)) :=
      (List.perm_ext_iff_of_nodup (nodup_jsSetDedup _) (nodup_jsSetDedup _)).mpr hmem
    have h2 : (sortPathsM (jsSetDedup ((m.map Prod.snd).flatten))).Perm
        (sortPathsM (jsSetDedup ((m'.map Prod.snd).flatten))) :=
      ((List.perm_insertionSort shallowLE _).trans h1).trans
        (List.perm_insertionSort shallowLE _).symm
    exact List.eq_of_perm_of_sorted h2 (sorted_sortPathsM _) (sorted_sortPathsM _)

/-- Claim C6 witness. -/
theorem cacheRefs_dedup_sorted_by_ref_string_w :
    (cacheRefs [("a.md", ["r", "q"]), ("b.md", ["r"])]).Nodup
    ∧ (∀ r, r ∈ cacheRefs [("a.md", ["r", "q"]), ("b.md", ["r"])] ↔
        ∃ p ∈ [("a.md", ["r", "q"]), ("b.md", ["r"])], r ∈ p.2)
    ∧ List.Sorted shallowLE (cacheRefs [("a.md", ["r", "q"]), ("b.md", ["r"])])
    ∧ cacheRefs [("a.md", ["r", "q"]), ("b.md", ["r"])]
        = cacheRefs [("b.md", ["r"]), ("a.md", ["r", "q"])] :=
  cacheRefs_dedup_sorted_by_ref_string [("a.md", ["r", "q"]), ("b.md", ["r"])]
    [("b.md", ["r"]), ("a.md", ["r", "q"])] (by decide)

/-- Claim C7: the batch rewrite returns the no-change sentinel exactly when
none of the rename pairs matched anywhere in the content; whenever some pair
matched it returns a string. -/
theorem replaceRefs_none_iff_no_pair_matched (refs : List (String × String))
    (content : String) :
    (replaceRefs refs content = none ↔
      ∀ p ∈ refs, hasMatch p.1.toList content.toList = false) := by
  rw [replaceRefs_eq, rrStep_flag]
  by_cases h : refs.any (fun p => hasMatch p.1.toList content.toList) = true
  · rw [h, if_pos rfl]
    constructor
    · intro hco; simp at hco
    · intro hall
      exfalso
      rcases List.any_eq_true.mp h with ⟨p, hp, hmatch⟩
      rw [hall p hp] at hmatch
      cases hmatch
  · have h2 : refs.any (fun p => hasMatch p.1.toList content.toList) = false := by
      simpa using h
    rw [h2, if_neg (by simp)]
    constructor
    · intro _ p hp
      by_contra hc
      have hT : hasMatch p.1.toList content.toList = true := by simpa using hc
      have hany : refs.any (fun p => hasMatch p.1.toList content.toList) = true :=
        List.any_eq_true.mpr ⟨p, hp, hT⟩
      rw [hany] at h2
      cases h2
    · intro _; rfl

/-- Claim C7 witness. -/
theorem replaceRefs_none_iff_no_pair_matched_w :
    (replaceRefs [("a", "x")] "no links" = none ↔
      ∀ p ∈ [("a", "x")], hasMatch p.1.toList ("no links" : String).toList = false) :=
  replaceRefs_none_iff_no_pair_matched [("a", "x")] "no links"

/-- Claim C8 counterexample: for the token `x|y|old` the shared parser splits
at the first divider (ref `y|old`, label `x`), while the rewrite engine's
greedy label capture splits at the last divider before the matched ref: the
pair `old -> NEW` — whose old side is not the parsed ref of the token —
matches the link and preserves `x|y` as the label.  The two split rules
therefore disagree on tokens with more than one divider. -/
theorem rewrite_parse_split_disagree_cex :
    parseRef "x|y|old" = ⟨"y|old", "x"⟩
    ∧ (parseRef "x|y|old").ref ≠ "old"
    ∧ replaceRefs [("old", "NEW")] "[[x|y|old]]" = some "[[x|y|NEW]]"
    ∧ "[[x|y|NEW]]" ≠ "[[" ++ (parseRef "x|y|old").label ++ "|" ++ "NEW" ++ "]]" := by
  decide

/-- Claim C8 as amended: the parser and the rewrite engine agree on every
token with at most one divider — both treat the trimmed text before the
unique divider as the label and the trimmed text after it as the ref, and a
divider-free token is its own ref — but with two or more dividers the rewrite
engine's greedy capture splits at the last divider while the parser splits at
the first. -/
theorem rewrite_parse_agree_single_divider (d o n : String)
    (hd : labelOk d.toList) (ho : tokOk o.toList) :
    parseRef (d ++ "|" ++ o) = ⟨o, d⟩
    ∧ replaceRefs [(o, n)] ("[[" ++ d ++ "|" ++ o ++ "]]")
        = some ("[[" ++ d ++ "|" ++ n ++ "]]")
    ∧ parseRef o = ⟨o, o⟩
    ∧ replaceRefs [(o, n)] ("[[" ++ o ++ "]]") = some ("[[" ++ n ++ "]]") :=
  ⟨parseRef_single_divider d o hd ho, replaceRefs_labelled_eval d o n hd ho,
    parseRef_no_divider o ho, replaceRefs_plain_eval o n ho⟩

/-- Claim C8 witness. -/
theorem rewrite_parse_agree_single_divider_w :
    parseRef ("lbl" ++ "|" ++ "tgt") = ⟨"tgt", "lbl"⟩
    ∧ replaceRefs [("tgt", "fresh")] ("[[" ++ "lbl" ++ "|" ++ "tgt" ++ "]]")
        = some ("[[" ++ "lbl" ++ "|" ++ "fresh" ++ "]]")
    ∧ parseRef "tgt" = ⟨"tgt", "tgt"⟩
    ∧ replaceRefs [("tgt", "fresh")] ("[[" ++ "tgt" ++ "]]")
        = some ("[[" ++ "fresh" ++ "]]") :=
  rewrite_parse_agree_single_divider "lbl" "tgt" "fresh" (by decide) (by decide)

/-- Claim C9: the per-file dangling map has a key for a path exactly when some
scanned (existing, markdown, non-directory) file at that path produced at
least one dangling ref — files whose scan produced no dangling refs are
absent rather than mapped to an empty list. -/
theorem findDanglingRefsByFsPath_key_iff (allUris : List String)
    (files : List FileLoc) (p : String) :
    (p ∈ (findDanglingRefsByFsPath allUris files).map Prod.fst ↔
      ∃ f ∈ files, f.fsPath = p ∧ skipFile f = false ∧
        extractDanglingRefs allUris f.content ≠ []) := by
  rw [findDanglingRefsByFsPath, findDangling_keys_fold allUris files p []]
  simp

/-- Claim C9 witness. -/
theorem findDanglingRefsByFsPath_key_iff_w :
    ("/ws/a.md" ∈ (findDanglingRefsByFsPath ["/ws/real.md"]
        [⟨"/ws/a.md", true, false, "[[gone]]"⟩]).map Prod.fst ↔
      ∃ f ∈ [(⟨"/ws/a.md", true, false, "[[gone]]"⟩ : FileLoc)],
        f.fsPath = "/ws/a.md" ∧ skipFile f = false ∧
        extractDanglingRefs ["/ws/real.md"] f.content ≠ []) :=
  findDanglingRefsByFsPath_key_iff ["/ws/real.md"]
    [⟨"/ws/a.md", true, false, "[[gone]]"⟩] "/ws/a.md"

/-- Claim C10: the per-file dangling list equals the scan-order ref sequence
with every later repeat occurrence dropped — it keeps exactly the first
occurrence of each ref in top-to-bottom, left-to-right scan order, is
duplicate-free, and has the same members as the raw sequence. -/
theorem extractDanglingRefs_dedup_first_occurrence (uris : List String)
    (content : String) :
    extractDanglingRefs uris content = dedupKeepFirst (rawDanglingRefs uris content)
    ∧ (extractDanglingRefs uris content).Nodup
    ∧ ∀ r, r ∈ extractDanglingRefs uris content ↔ r ∈ rawDanglingRefs uris content :=
  ⟨jsSetDedup_eq_dedupKeepFirst _, nodup_jsSetDedup _, fun r => mem_jsSetDedup r _⟩

/-- Claim C10 witness. -/
theorem extractDanglingRefs_dedup_first_occurrence_w :
    extractDanglingRefs [] "[[a]] [[b]] [[a]]"
        = dedupKeepFirst (rawDanglingRefs [] "[[a]] [[b]] [[a]]")
    ∧ (extractDanglingRefs [] "[[a]] [[b]] [[a]]").Nodup
    ∧ ∀ r, r ∈ extractDanglingRefs [] "[[a]] [[b]] [[a]]"
        ↔ r ∈ rawDanglingRefs [] "[[a]] [[b]] [[a]]" :=
  extractDanglingRefs_dedup_first_occurrence [] "[[a]] [[b]] [[a]]"

end DendronRefs
